import Mathlib

/-!
Verification development for the url-replace channel bot.

The bot (bot.py) rewrites channel posts: links matching URL_PATTERN are
replaced by "[Link Removed]" unless a whitelist entry is a case-insensitive
substring, mentions matching USERNAME_PATTERN are replaced by the configured
default username unless exactly whitelisted, and posts with only whitelisted
content get the default username appended.  HTML tags matching
HTML_TAG_PATTERN are split out and re-interleaved.  database.py keeps the
global settings document.  Texts are modelled as lists of characters; the
regular-expression scan loop (find leftmost match, consume it, continue) is
modelled by an explicit fuel-indexed scanner.
-/

namespace UrlReplace

/-- ASCII model of Python's regex class backslash-s. -/
def isSpace (c : Char) : Bool :=
  c = ' ' || c = '\t' || c = '\n' || c = '\r' || c = '\x0b' || c = '\x0c'

/-- ASCII model of Python's regex class backslash-w. -/
def isWordChar (c : Char) : Bool :=
  c.isAlpha || c.isDigit || c = '_'

/-- Model of the regex class of hexadecimal digits used in URL_PATTERN. -/
def isHexDigit (c : Char) : Bool :=
  c.isDigit || ('a' ≤ c && c ≤ 'f') || ('A' ≤ c && c ≤ 'F')

/-- Model of Python str.lower, character-wise (ASCII). -/
def lowerL (s : List Char) : List Char := s.map Char.toLower

/-- Model of Python's substring test (the `in` operator on str). -/
def isSubstrOf (pat s : List Char) : Bool :=
  s.tails.any (fun t => pat.isPrefixOf t)

/-- Model of Python str.endswith. -/
def endsWithL (s suffix : List Char) : Bool :=
  suffix.isSuffixOf s

/-- Model of Python str.strip (whitespace from both ends). -/
def pyStrip (s : List Char) : List Char :=
  (((s.dropWhile isSpace).reverse.dropWhile isSpace)).reverse

/-! ## takeWhile / dropWhile toolkit -/

theorem takeWhile_all (p : Char → Bool) (l : List Char)
    (h : ∀ c ∈ l, p c = true) : l.takeWhile p = l :=
  List.takeWhile_eq_self_iff.mpr h

theorem dropWhile_all (p : Char → Bool) (l : List Char)
    (h : ∀ c ∈ l, p c = true) : l.dropWhile p = [] :=
  List.dropWhile_eq_nil_iff.mpr h

theorem takeWhile_append_break (p : Char → Bool) (a : List Char) {d : Char}
    (b : List Char) (hd : p d = false) :
    (a ++ d :: b).takeWhile p = a.takeWhile p := by
  rw [List.takeWhile_append]
  split
  · next hl =>
      have hz := congrArg List.length
        (List.takeWhile_append_dropWhile (p := p) (l := a))
      rw [List.length_append, hl] at hz
      have hdw : a.dropWhile p = [] :=
        List.eq_nil_of_length_eq_zero (by omega)
      have ha : a.takeWhile p = a := by
        have hs := List.takeWhile_append_dropWhile (p := p) (l := a)
        rw [hdw, List.append_nil] at hs
        exact hs
      rw [ha, List.takeWhile_cons, hd]
      simp
  · rfl

theorem dropWhile_append_break (p : Char → Bool) (a : List Char) {d : Char}
    (b : List Char) (hd : p d = false) :
    (a ++ d :: b).dropWhile p = a.dropWhile p ++ d :: b := by
  rw [List.dropWhile_append]
  split
  · next hl =>
      rw [List.isEmpty_iff] at hl
      rw [hl, List.dropWhile_cons, hd]
      simp
  · rfl

theorem dropWhile_head_neg (p : Char → Bool) (l : List Char) {d : Char}
    {r : List Char} (h : l.dropWhile p = d :: r) : p d = false := by
  have hw : l.dropWhile p ≠ [] := by simp [h]
  have hh := List.head_dropWhile_not p l hw
  have hd : (l.dropWhile p).head hw = d := by
    have : (l.dropWhile p).head? = some d := by rw [h]; rfl
    rw [List.head?_eq_head hw] at this
    exact Option.some_injective _ this
  rw [hd] at hh
  exact hh

theorem takeWhile_append_of_dropWhile_cons (p : Char → Bool) (a : List Char)
    {d : Char} {r : List Char} (h : a.dropWhile p = d :: r) (b : List Char) :
    (a ++ b).takeWhile p = a.takeWhile p := by
  rw [List.takeWhile_append]
  have hlen : (a.takeWhile p).length ≠ a.length := by
    intro hl
    have hz := congrArg List.length (List.takeWhile_append_dropWhile (p := p) (l := a))
    rw [List.length_append, h, hl] at hz
    simp at hz
  simp [hlen]

theorem dropWhile_append_of_dropWhile_cons (p : Char → Bool) (a : List Char)
    {d : Char} {r : List Char} (h : a.dropWhile p = d :: r) (b : List Char) :
    (a ++ b).dropWhile p = d :: (r ++ b) := by
  rw [List.dropWhile_append]
  simp [h]

theorem dropWhile_append_all (p : Char → Bool) (a : List Char)
    (h : a.dropWhile p = []) (b : List Char) :
    (a ++ b).dropWhile p = b.dropWhile p := by
  rw [List.dropWhile_append]
  simp [h]

/-! ## The regex scan loop

`scanAux` models the scan shared by re.findall, re.sub and re.split: walk
left to right; at each position try the pattern; on a match emit the pending
literal chunk and the match and continue after it.  All three patterns in
bot.py only produce nonempty matches, so the Python empty-match rules never
fire. -/

inductive Tok where
  | plain : List Char → Tok
  | hit : List Char → Tok
  deriving DecidableEq

def Tok.str : Tok → List Char
  | .plain s => s
  | .hit s => s

def joinToks (ts : List Tok) : List Char :=
  (ts.map Tok.str).flatten

def hits (ts : List Tok) : List (List Char) :=
  ts.filterMap (fun t => match t with | .hit m => some m | .plain _ => none)

def plains (ts : List Tok) : List (List Char) :=
  ts.filterMap (fun t => match t with | .plain s => some s | .hit _ => none)

def scanAux (matchAt : List Char → Option (List Char × List Char)) :
    Nat → List Char → List Char → List Tok
  | _, acc, [] => [Tok.plain acc.reverse]
  | 0, acc, c :: cs => [Tok.plain (acc.reverse ++ c :: cs)]
  | fuel + 1, acc, c :: cs =>
    match matchAt (c :: cs) with
    | some (m, rest) => Tok.plain acc.reverse :: Tok.hit m :: scanAux matchAt fuel [] rest
    | none => scanAux matchAt fuel (c :: acc) cs

def scanTok (matchAt : List Char → Option (List Char × List Char))
    (cs : List Char) : List Tok :=
  scanAux matchAt cs.length [] cs

/-- Model of re.findall (full matches). -/
def findallM (matchAt : List Char → Option (List Char × List Char))
    (cs : List Char) : List (List Char) :=
  hits (scanTok matchAt cs)

/-- Model of re.split with a group-free pattern. -/
def splitM (matchAt : List Char → Option (List Char × List Char))
    (cs : List Char) : List (List Char) :=
  plains (scanTok matchAt cs)

/-- Model of re.sub with a function replacement. -/
def substM (matchAt : List Char → Option (List Char × List Char))
    (f : List Char → List Char) (cs : List Char) : List Char :=
  ((scanTok matchAt cs).map
    (fun t => match t with | .plain s => s | .hit m => f m)).flatten

/-! ## The three matchers of bot.py

HTML_TAG_PATTERN = `<[^>]+>`
USERNAME_PATTERN = `@(backslash-w+)`
URL_PATTERN = `https?://(?:[-backslash-w.]|(?:%[hex]{2}))+[^s]* | www.[^s]+`
Each matcher reports the match attempt at the head of the list, exactly as
the Python engine tries the pattern anchored at one position. -/

def matchHtmlAt : List Char → Option (List Char × List Char)
  | [] => none
  | c :: rest =>
    if c = '<' then
      match rest.dropWhile (fun x => !(x = '>')) with
      | g :: after =>
        if (rest.takeWhile (fun x => !(x = '>'))).isEmpty then none
        else some (c :: (rest.takeWhile (fun x => !(x = '>')) ++ [g]), after)
      | [] => none
    else none

def matchUserAt : List Char → Option (List Char × List Char)
  | [] => none
  | c :: rest =>
    if c = '@' then
      if (rest.takeWhile isWordChar).isEmpty then none
      else some (c :: rest.takeWhile isWordChar, rest.dropWhile isWordChar)
    else none

def httpsPat : List Char := "https://".data
def httpPat : List Char := "http://".data
def wwwPat : List Char := "www.".data

def notSpace (c : Char) : Bool := !(isSpace c)

/-- First repetition unit of `(?:[-backslash-w.]|(?:%[hex]{2}))+`. -/
def urlUnitStart : List Char → Bool
  | [] => false
  | c :: rest =>
    if c = '-' || isWordChar c || c = '.' then true
    else if c = '%' then
      match rest with
      | a :: b :: _ => isHexDigit a && isHexDigit b
      | _ => false
    else false

/-- After `https?://`, the pattern needs one repetition unit and then
greedily extends over `[^s]*` to the first whitespace. -/
def urlAfterScheme (scheme rest : List Char) : Option (List Char × List Char) :=
  if urlUnitStart rest then
    some (scheme ++ rest.takeWhile notSpace, rest.dropWhile notSpace)
  else none

def matchUrlAt (cs : List Char) : Option (List Char × List Char) :=
  if cs.take 8 = httpsPat then urlAfterScheme (cs.take 8) (cs.drop 8)
  else if cs.take 7 = httpPat then urlAfterScheme (cs.take 7) (cs.drop 7)
  else if cs.take 4 = wwwPat then
    if ((cs.drop 4).takeWhile notSpace).isEmpty then none
    else some (cs.take 4 ++ (cs.drop 4).takeWhile notSpace,
               (cs.drop 4).dropWhile notSpace)
  else none

/-! ## Basic properties of the scanner -/

/-- A matcher is well-formed when a reported match really is a nonempty
initial segment of the input. -/
def SplitsOK (matchAt : List Char → Option (List Char × List Char)) : Prop :=
  ∀ cs m r, matchAt cs = some (m, r) → cs = m ++ r ∧ m ≠ []

theorem matchHtmlAt_split : SplitsOK matchHtmlAt := by
  intro cs m r h
  match cs with
  | [] => simp [matchHtmlAt] at h
  | c :: rest =>
    simp only [matchHtmlAt] at h
    split at h
    · split at h
      next g after hdw =>
        split at h
        · simp at h
        · simp only [Option.some.injEq, Prod.mk.injEq] at h
          obtain ⟨hm, hr⟩ := h
          constructor
          · rw [← hm, ← hr]
            have hre : rest = rest.takeWhile (fun x => !(x = '>')) ++ (g :: after) := by
              rw [← hdw]
              exact (List.takeWhile_append_dropWhile (p := fun x => !(x = '>'))
                (l := rest)).symm
            calc c :: rest
                = c :: (rest.takeWhile (fun x => !(x = '>')) ++ (g :: after)) := by
                  rw [← hre]
              _ = (c :: (rest.takeWhile (fun x => !(x = '>')) ++ [g])) ++ after := by
                  simp
          · rw [← hm]; simp
      next hdw => simp at h
    · simp at h

theorem matchUserAt_split : SplitsOK matchUserAt := by
  intro cs m r h
  match cs with
  | [] => simp [matchUserAt] at h
  | c :: rest =>
    simp only [matchUserAt] at h
    by_cases hc : c = '@'
    · rw [if_pos hc] at h
      by_cases he : (rest.takeWhile isWordChar).isEmpty
      · rw [if_pos he] at h; simp at h
      · rw [if_neg he] at h
        simp only [Option.some.injEq, Prod.mk.injEq] at h
        obtain ⟨hm, hr⟩ := h
        constructor
        · rw [← hm, ← hr]
          simp [List.takeWhile_append_dropWhile]
        · rw [← hm]; simp
    · rw [if_neg hc] at h; simp at h

theorem matchUrlAt_split : SplitsOK matchUrlAt := by
  intro cs m r h
  unfold matchUrlAt at h
  by_cases h8 : cs.take 8 = httpsPat
  · rw [if_pos h8] at h
    unfold urlAfterScheme at h
    by_cases hu : urlUnitStart (cs.drop 8)
    · rw [if_pos hu] at h
      simp only [Option.some.injEq, Prod.mk.injEq] at h
      obtain ⟨hm, hr⟩ := h
      constructor
      · rw [← hm, ← hr, List.append_assoc, List.takeWhile_append_dropWhile,
          List.take_append_drop]
      · rw [← hm, h8]; simp [httpsPat]
    · rw [if_neg hu] at h; simp at h
  · rw [if_neg h8] at h
    by_cases h7 : cs.take 7 = httpPat
    · rw [if_pos h7] at h
      unfold urlAfterScheme at h
      by_cases hu : urlUnitStart (cs.drop 7)
      · rw [if_pos hu] at h
        simp only [Option.some.injEq, Prod.mk.injEq] at h
        obtain ⟨hm, hr⟩ := h
        constructor
        · rw [← hm, ← hr, List.append_assoc, List.takeWhile_append_dropWhile,
            List.take_append_drop]
        · rw [← hm, h7]; simp [httpPat]
      · rw [if_neg hu] at h; simp at h
    · rw [if_neg h7] at h
      by_cases h4 : cs.take 4 = wwwPat
      · rw [if_pos h4] at h
        by_cases he : ((cs.drop 4).takeWhile notSpace).isEmpty
        · rw [if_pos he] at h; simp at h
        · rw [if_neg he] at h
          simp only [Option.some.injEq, Prod.mk.injEq] at h
          obtain ⟨hm, hr⟩ := h
          constructor
          · rw [← hm, ← hr, List.append_assoc, List.takeWhile_append_dropWhile,
              List.take_append_drop]
          · rw [← hm, h4]; simp [wwwPat]
      · rw [if_neg h4] at h; simp at h

theorem joinToks_cons (t : Tok) (ts : List Tok) :
    joinToks (t :: ts) = t.str ++ joinToks ts := by
  simp [joinToks]

theorem hits_cons_plain (s : List Char) (ts : List Tok) :
    hits (Tok.plain s :: ts) = hits ts := by
  simp [hits]

theorem hits_cons_hit (m : List Char) (ts : List Tok) :
    hits (Tok.hit m :: ts) = m :: hits ts := by
  simp [hits]

theorem plains_cons_plain (s : List Char) (ts : List Tok) :
    plains (Tok.plain s :: ts) = s :: plains ts := by
  simp [plains]

theorem plains_cons_hit (m : List Char) (ts : List Tok) :
    plains (Tok.hit m :: ts) = plains ts := by
  simp [plains]

/-- The scanner partitions its input: the emitted chunks concatenate back to
the pending accumulator plus the remaining text. -/
theorem joinToks_scanAux (matchAt : List Char → Option (List Char × List Char))
    (hok : SplitsOK matchAt) :
    ∀ (fuel : Nat) (acc cs : List Char), cs.length ≤ fuel →
      joinToks (scanAux matchAt fuel acc cs) = acc.reverse ++ cs := by
  intro fuel
  induction fuel with
  | zero =>
      intro acc cs hle
      cases cs with
      | nil => simp [scanAux, joinToks, Tok.str]
      | cons c cs => simp at hle
  | succ fuel ih =>
      intro acc cs hle
      cases cs with
      | nil => simp [scanAux, joinToks, Tok.str]
      | cons c cs =>
        cases hm : matchAt (c :: cs) with
        | none =>
            simp only [scanAux, hm]
            rw [ih (c :: acc) cs (by simpa using Nat.le_of_succ_le_succ hle)]
            simp
        | some p =>
            obtain ⟨m, rest⟩ := p
            obtain ⟨heq, hne⟩ := hok _ _ _ hm
            have hrest : rest.length ≤ fuel := by
              have hlen := congrArg List.length heq
              simp [List.length_append] at hlen
              have hm1 : 1 ≤ m.length := by
                cases m with
                | nil => exact absurd rfl hne
                | cons _ _ => simp
              simp at hle
              omega
            simp only [scanAux, hm]
            rw [joinToks_cons, joinToks_cons, ih [] rest hrest]
            simp [Tok.str, heq]

/-- Tokens produced by the scanner alternate plain, hit, plain, hit, …,
ending in a plain chunk. -/
inductive AltToks : List Tok → Prop
  | single (p : List Char) : AltToks [Tok.plain p]
  | cons (p m : List Char) (rest : List Tok) :
      AltToks rest → AltToks (Tok.plain p :: Tok.hit m :: rest)

theorem altToks_scanAux (matchAt : List Char → Option (List Char × List Char)) :
    ∀ (fuel : Nat) (acc cs : List Char), AltToks (scanAux matchAt fuel acc cs) := by
  intro fuel
  induction fuel with
  | zero =>
      intro acc cs
      cases cs with
      | nil => exact AltToks.single _
      | cons c cs => exact AltToks.single _
  | succ fuel ih =>
      intro acc cs
      cases cs with
      | nil => exact AltToks.single _
      | cons c cs =>
        cases hm : matchAt (c :: cs) with
        | none => simp only [scanAux, hm]; exact ih _ _
        | some p =>
            obtain ⟨m, rest⟩ := p
            simp only [scanAux, hm]
            exact AltToks.cons _ _ _ (ih _ _)

theorem match_rest_lt {matchAt : List Char → Option (List Char × List Char)}
    (hok : SplitsOK matchAt) {s m rest : List Char}
    (hm : matchAt s = some (m, rest)) : rest.length < s.length := by
  obtain ⟨heq, hne⟩ := hok _ _ _ hm
  have hlen := congrArg List.length heq
  rw [List.length_append] at hlen
  cases m with
  | nil => exact absurd rfl hne
  | cons _ _ => simp at hlen; omega

theorem hits_scanAux_acc (matchAt : List Char → Option (List Char × List Char)) :
    ∀ (fuel : Nat) (acc acc' cs : List Char),
      hits (scanAux matchAt fuel acc cs) = hits (scanAux matchAt fuel acc' cs) := by
  intro fuel
  induction fuel with
  | zero => intro acc acc' cs; cases cs <;> simp [scanAux, hits]
  | succ fuel ih =>
      intro acc acc' cs
      cases cs with
      | nil => simp [scanAux, hits]
      | cons c cs =>
        cases hm : matchAt (c :: cs) with
        | none => simp only [scanAux, hm]; exact ih _ _ _
        | some p =>
            obtain ⟨m, rest⟩ := p
            simp only [scanAux, hm]
            simp [hits_cons_plain, hits_cons_hit]

theorem scanAux_fuel {matchAt : List Char → Option (List Char × List Char)}
    (hok : SplitsOK matchAt) :
    ∀ (fuel fuel' : Nat) (acc cs : List Char), cs.length ≤ fuel → cs.length ≤ fuel' →
      scanAux matchAt fuel acc cs = scanAux matchAt fuel' acc cs := by
  intro fuel
  induction fuel with
  | zero =>
      intro fuel' acc cs h1 h2
      cases cs with
      | nil => cases fuel' <;> simp [scanAux]
      | cons c cs => simp at h1
  | succ fuel ih =>
      intro fuel' acc cs h1 h2
      cases cs with
      | nil => cases fuel' <;> simp [scanAux]
      | cons c cs =>
        cases fuel' with
        | zero => simp at h2
        | succ fuel' =>
          cases hm : matchAt (c :: cs) with
          | none =>
              simp only [scanAux, hm]
              exact ih fuel' (c :: acc) cs (by simp at h1; omega) (by simp at h2; omega)
          | some p =>
              obtain ⟨m, rest⟩ := p
              simp only [scanAux, hm]
              have hr := match_rest_lt hok hm
              rw [ih fuel' [] rest (by simp at h1 hr ⊢; omega) (by simp at h2 hr ⊢; omega)]

/-- Scanning `s ++ X` decomposes when appending `X` does not disturb any
match attempt inside `s` (hypothesis H1). -/
theorem hits_scanAux_append {matchAt : List Char → Option (List Char × List Char)}
    (hok : SplitsOK matchAt) {X : List Char}
    (H1 : ∀ s, s ≠ [] →
      matchAt (s ++ X) = Option.map (fun p => (p.1, p.2 ++ X)) (matchAt s)) :
    ∀ (fuel : Nat) (acc s : List Char), s.length + X.length ≤ fuel →
      hits (scanAux matchAt fuel acc (s ++ X)) =
        hits (scanAux matchAt s.length [] s) ++ hits (scanAux matchAt X.length [] X) := by
  intro fuel
  induction fuel with
  | zero =>
      intro acc s hle
      have hs : s = [] := List.eq_nil_of_length_eq_zero (by omega)
      have hX : X = [] := List.eq_nil_of_length_eq_zero (by omega)
      subst hs; subst hX
      simp [scanAux, hits]
  | succ fuel ih =>
      intro acc s hle
      cases s with
      | nil =>
          simp only [List.nil_append]
          rw [hits_scanAux_acc matchAt (fuel + 1) acc [] X,
            scanAux_fuel hok (fuel + 1) X.length [] X (by omega) (le_refl _)]
          simp [scanAux, hits]
      | cons c s' =>
          have hne : (c :: s') ≠ [] := by simp
          have hX1 := H1 (c :: s') hne
          cases hm : matchAt (c :: s') with
          | none =>
              rw [hm] at hX1
              simp only [Option.map_none'] at hX1
              simp only [List.cons_append] at hX1 ⊢
              simp only [scanAux, hX1, hm]
              rw [ih (c :: acc) s' (by simp at hle ⊢; omega)]
              rw [hits_scanAux_acc matchAt s'.length [] [c] s']
          | some p =>
              obtain ⟨m, rest⟩ := p
              rw [hm] at hX1
              simp only [Option.map_some'] at hX1
              simp only [List.cons_append] at hX1 ⊢
              simp only [scanAux, hX1, hm]
              rw [hits_cons_plain, hits_cons_hit, hits_cons_plain, hits_cons_hit]
              have hr := match_rest_lt hok hm
              rw [ih [] rest (by simp at hle hr ⊢; omega)]
              rw [scanAux_fuel hok rest.length s'.length [] rest (le_refl _)
                (by simp at hr; omega)]
              simp

/-- Every reported match comes from a successful match attempt at some
suffix of the input. -/
theorem hits_scanAux_sound {matchAt : List Char → Option (List Char × List Char)}
    (hok : SplitsOK matchAt) :
    ∀ (fuel : Nat) (acc cs m : List Char), m ∈ hits (scanAux matchAt fuel acc cs) →
      ∃ s r, s <:+ cs ∧ matchAt s = some (m, r) := by
  intro fuel
  induction fuel with
  | zero => intro acc cs m hm; cases cs <;> simp [scanAux, hits] at hm
  | succ fuel ih =>
      intro acc cs m hmem
      cases cs with
      | nil => simp [scanAux, hits] at hmem
      | cons c cs =>
        cases hm : matchAt (c :: cs) with
        | none =>
            simp only [scanAux, hm] at hmem
            obtain ⟨s, r, hs, hms⟩ := ih _ _ _ hmem
            exact ⟨s, r, hs.trans (List.suffix_cons c cs), hms⟩
        | some p =>
            obtain ⟨m0, rest⟩ := p
            simp only [scanAux, hm] at hmem
            rw [hits_cons_plain, hits_cons_hit] at hmem
            rcases List.mem_cons.mp hmem with rfl | hmem'
            · exact ⟨c :: cs, rest, List.suffix_refl _, hm⟩
            · obtain ⟨s, r, hs, hms⟩ := ih _ _ _ hmem'
              have hsub : rest <:+ c :: cs := ⟨m0, (hok _ _ _ hm).1.symm⟩
              exact ⟨s, r, hs.trans hsub, hms⟩

theorem altToks_no_hits {ts : List Tok} (halt : AltToks ts) (h : hits ts = []) :
    ∃ p, ts = [Tok.plain p] := by
  cases halt with
  | single p => exact ⟨p, rfl⟩
  | cons p m rest _ => rw [hits_cons_plain, hits_cons_hit] at h; simp at h

theorem scanTok_of_no_hits {matchAt : List Char → Option (List Char × List Char)}
    (hok : SplitsOK matchAt) {cs : List Char} (h : findallM matchAt cs = []) :
    scanTok matchAt cs = [Tok.plain cs] := by
  obtain ⟨p, hp⟩ := altToks_no_hits (altToks_scanAux matchAt cs.length [] cs) h
  have hp' : scanTok matchAt cs = [Tok.plain p] := hp
  have hjoin := joinToks_scanAux matchAt hok cs.length [] cs (le_refl _)
  have hjoin' : joinToks (scanTok matchAt cs) = cs := by simpa using hjoin
  rw [hp'] at hjoin'
  simp [joinToks, Tok.str] at hjoin'
  rw [hp', hjoin']

theorem substM_of_no_hits {matchAt : List Char → Option (List Char × List Char)}
    (hok : SplitsOK matchAt) {cs : List Char} (h : findallM matchAt cs = [])
    (f : List Char → List Char) : substM matchAt f cs = cs := by
  rw [substM, scanTok_of_no_hits hok h]
  simp

theorem splitM_of_no_hits {matchAt : List Char → Option (List Char × List Char)}
    (hok : SplitsOK matchAt) {cs : List Char} (h : findallM matchAt cs = []) :
    splitM matchAt cs = [cs] := by
  rw [splitM, scanTok_of_no_hits hok h]
  simp [plains]

/-- If the replacement function fixes every match, re.sub is the identity. -/
theorem substM_id_of_hits_fixed {matchAt : List Char → Option (List Char × List Char)}
    (hok : SplitsOK matchAt) {f : List Char → List Char} {cs : List Char}
    (h : ∀ m ∈ findallM matchAt cs, f m = m) : substM matchAt f cs = cs := by
  have hmap : (scanTok matchAt cs).map
        (fun t => match t with | .plain s => s | .hit m => f m)
      = (scanTok matchAt cs).map Tok.str := by
    apply List.map_congr_left
    intro t ht
    cases t with
    | plain s => rfl
    | hit m =>
        apply h m
        simp only [findallM, hits, List.mem_filterMap]
        exact ⟨Tok.hit m, ht, rfl⟩
  rw [substM, hmap]
  have hj := joinToks_scanAux matchAt hok cs.length [] cs (le_refl _)
  simpa [joinToks, scanTok] using hj

theorem findallM_eq_nil_of_none (matchAt : List Char → Option (List Char × List Char))
    {cs : List Char} (h : ∀ s, s ≠ [] → s <:+ cs → matchAt s = none) :
    findallM matchAt cs = [] := by
  suffices H : ∀ (fuel : Nat) (acc s : List Char), s <:+ cs →
      hits (scanAux matchAt fuel acc s) = [] by
    exact H cs.length [] cs (List.suffix_refl cs)
  intro fuel
  induction fuel with
  | zero => intro acc s hs; cases s <;> simp [scanAux, hits]
  | succ fuel ih =>
      intro acc s hs
      cases s with
      | nil => simp [scanAux, hits]
      | cons c s' =>
          have hm : matchAt (c :: s') = none := h _ (by simp) hs
          simp only [scanAux, hm]
          exact ih _ _ ((List.suffix_cons c s').trans hs)

theorem findallM_append {matchAt : List Char → Option (List Char × List Char)}
    (hok : SplitsOK matchAt) {X : List Char}
    (H1 : ∀ s, s ≠ [] →
      matchAt (s ++ X) = Option.map (fun p => (p.1, p.2 ++ X)) (matchAt s))
    (t : List Char) :
    findallM matchAt (t ++ X) = findallM matchAt t ++ findallM matchAt X := by
  have := hits_scanAux_append hok H1 (t ++ X).length [] t (by simp)
  simpa [findallM, scanTok] using this

/-! ## ChannelBot text rewriting (bot.py) -/

/-- Global settings snapshot as read in process_channel_post: the default
username, both whitelists and the three feature flags of the settings
sub-document. -/
structure BotSettings where
  default_username : List Char
  whitelist_usernames : List (List Char)
  whitelist_urls : List (List Char)
  replace_links : Bool
  replace_usernames : Bool
  add_username_to_all : Bool
  deriving DecidableEq

/-- bot.py: `for whitelisted_url in whitelist_urls: if whitelisted_url.lower()
in url.lower()` (both in detection and in replace_url). -/
def urlWhitelisted (wl : List (List Char)) (url : List Char) : Bool :=
  wl.any (fun w => isSubstrOf (lowerL w) (lowerL url))

/-- bot.py replace_url (lines 434-439). -/
def replace_url (wl : List (List Char)) (url : List Char) : List Char :=
  if urlWhitelisted wl url then url else "[Link Removed]".data

/-- bot.py process_urls (lines 430-441). -/
def process_urls (st : BotSettings) (content : List Char) : List Char :=
  if !st.replace_links then content
  else substM matchUrlAt (replace_url st.whitelist_urls) content

/-- bot.py replace_username (lines 448-453): group(1) is the match without
the leading at sign; the full form is checked for exact membership. -/
def replace_username (st : BotSettings) (m : List Char) : List Char :=
  if ('@' :: m.drop 1) ∈ st.whitelist_usernames then '@' :: m.drop 1
  else st.default_username

/-- bot.py process_usernames (lines 444-455). -/
def process_usernames (st : BotSettings) (content : List Char) : List Char :=
  if !st.replace_usernames then content
  else substM matchUserAt (replace_username st) content

/-- bot.py process_content (lines 458-461): URLs first, then usernames. -/
def process_content (st : BotSettings) (content : List Char) : List Char :=
  process_usernames st (process_urls st content)

/-- The interleaving loop of process_with_html_preservation (lines 56-61):
for i in range(max(len(parts), len(tags))) append parts[i] then tags[i]. -/
def interleave : List (List Char) → List (List Char) → List Char
  | [], ts => ts.flatten
  | p :: ps, [] => p ++ interleave ps []
  | p :: ps, t :: ts => p ++ (t ++ interleave ps ts)

/-- bot.py process_with_html_preservation (lines 37-63): split on the tag
pattern, process only the parts at even indices, keep the others, then
re-interleave parts and tags. -/
def process_with_html_preservation (f : List Char → List Char)
    (original_text : List Char) : List Char :=
  interleave
    ((splitM matchHtmlAt original_text).enum.map
      (fun p => if p.1 % 2 = 0 then f p.2 else p.2))
    (findallM matchHtmlAt original_text)

/-- bot.py extract_text_without_html (lines 32-35). -/
def extract_text_without_html (text : List Char) : List Char :=
  substM matchHtmlAt (fun _ => []) text

/-- Detection loop for URLs (bot.py lines 389-401): findall, then keep those
with no whitelist entry as case-insensitive substring. -/
def nonWhitelistedUrls (wl : List (List Char)) (text : List Char) :
    List (List Char) :=
  (findallM matchUrlAt text).filter (fun url => !urlWhitelisted wl url)

/-- Detection loop for usernames (bot.py lines 410-416): findall returns the
capture group (without the at sign), the full form is rebuilt and checked for
exact membership. -/
def nonWhitelistedUsernames (wl : List (List Char)) (text : List Char) :
    List (List Char) :=
  ((findallM matchUserAt text).map (fun m => m.drop 1)).filterMap
    (fun g => if ('@' :: g) ∈ wl then none else some ('@' :: g))

/-- bot.py lines 384-421: needs_modification is set when a feature flag is on
and the corresponding non-whitelisted list is nonempty. -/
def needs_modification (st : BotSettings) (text_without_html : List Char) : Bool :=
  (st.replace_links && !(nonWhitelistedUrls st.whitelist_urls text_without_html).isEmpty)
  || (st.replace_usernames
      && !(nonWhitelistedUsernames st.whitelist_usernames text_without_html).isEmpty)

/-- The pure rewriting core of process_channel_post (bot.py lines 379-481):
returns (modified_text, modifications_made).  The two branches of the
username-appending conditional at lines 474-478 produce the same string and
are collapsed. -/
def rewriteCore (st : BotSettings) (original_text : List Char) : List Char × Bool :=
  if needs_modification st (extract_text_without_html original_text) then
    (process_with_html_preservation (process_content st) original_text, true)
  else if st.add_username_to_all then
    if !(endsWithL (pyStrip (extract_text_without_html original_text))
          (st.default_username.filter (fun c => !(c = '@'))))
       && !(endsWithL (pyStrip (extract_text_without_html original_text))
          st.default_username) then
      (original_text ++ '\n' :: '\n' :: st.default_username, true)
    else (original_text, false)
  else (original_text, false)

/-! ## The message-edit side of process_channel_post (bot.py lines 483-510)

The handler body runs inside a try/except that logs and returns; the edit
call runs inside an inner try/except whose handler makes exactly one retry
without the HTML parse mode, inside a second try/except that logs and
swallows.  Each attempted platform call is recorded as an event. -/

inductive EditAttempt where
  | html : List Char → Bool → EditAttempt
  | plain : List Char → Bool → EditAttempt
  deriving DecidableEq

/-- Inner try/except of lines 485-507: try edit with ParseMode.HTML; on an
exception retry once without parse mode; a second exception is swallowed. -/
def attempt_edits (html_ok plain_ok : Bool) (body : List Char) : List EditAttempt :=
  if html_ok then [EditAttempt.html body true]
  else if plain_ok then [EditAttempt.html body false, EditAttempt.plain body true]
  else [EditAttempt.html body false, EditAttempt.plain body false]

/-- Environment of one invocation: whether the settings read raises, the
settings it returns otherwise, and whether each platform edit call raises. -/
structure PostWorld where
  settings_ok : Bool
  settings : BotSettings
  html_edit_ok : Bool
  plain_edit_ok : Bool

/-- Body of process_channel_post up to the outer exception handler: an
Except-computation that raises where the Python body would. -/
def post_body (w : PostWorld) (text : List Char) : Except Unit (List EditAttempt) :=
  if text.isEmpty then Except.ok []
  else if !w.settings_ok then Except.error ()
  else
    if (rewriteCore w.settings text).2 && !((rewriteCore w.settings text).1 = text) then
      Except.ok (attempt_edits w.html_edit_ok w.plain_edit_ok (rewriteCore w.settings text).1)
    else Except.ok []

/-- process_channel_post (bot.py lines 349-510): the outer try/except catches
every exception, logs it and performs no further action. -/
def process_channel_post (w : PostWorld) (text : List Char) : List EditAttempt :=
  match post_body w text with
  | Except.ok evs => evs
  | Except.error _ => []

/-! ## Settings store (database.py and the command handlers of bot.py) -/

/-- The single global settings document (database.py init_global_settings). -/
structure GlobalDoc where
  username : List Char
  whitelist_usernames : List (List Char)
  whitelist_urls : List (List Char)
  deriving DecidableEq

/-- MongoDB addToSet on an array field: append only when absent. -/
def addToSet (l : List (List Char)) (x : List Char) : List (List Char) :=
  if x ∈ l then l else l ++ [x]

/-- MongoDB pull on an array field: remove every occurrence. -/
def pullElem (l : List (List Char)) (x : List Char) : List (List Char) :=
  l.filter (fun y => !(y = x))

/-- database.py add_to_whitelist_usernames (lines 109-114). -/
def add_to_whitelist_usernames (d : GlobalDoc) (u : List Char) : GlobalDoc :=
  { d with whitelist_usernames := addToSet d.whitelist_usernames u }

/-- database.py remove_from_whitelist_usernames (lines 116-121). -/
def remove_from_whitelist_usernames (d : GlobalDoc) (u : List Char) : GlobalDoc :=
  { d with whitelist_usernames := pullElem d.whitelist_usernames u }

/-- database.py add_to_whitelist_urls (lines 128-133). -/
def add_to_whitelist_urls (d : GlobalDoc) (u : List Char) : GlobalDoc :=
  { d with whitelist_urls := addToSet d.whitelist_urls u }

/-- database.py remove_from_whitelist_urls (lines 135-140). -/
def remove_from_whitelist_urls (d : GlobalDoc) (u : List Char) : GlobalDoc :=
  { d with whitelist_urls := pullElem d.whitelist_urls u }

/-- bot.py set_username_command (lines 118-122): an argument without a
leading at sign gets one prepended before being stored. -/
def set_username_arg (arg : List Char) : List Char :=
  if arg.take 1 = ['@'] then arg else '@' :: arg

/-- The command handler stores the at-shaped username via
database.py update_global_username. -/
def set_username_command (d : GlobalDoc) (arg : List Char) : GlobalDoc :=
  { d with username := set_username_arg arg }

/-- Invariant claimed by the spec: the whitelists behave as sets (no
duplicates) and a nonempty stored username starts with the at sign. -/
def DocInvariant (d : GlobalDoc) : Prop :=
  d.whitelist_usernames.Nodup ∧ d.whitelist_urls.Nodup ∧
    (d.username ≠ [] → d.username.take 1 = ['@'])

instance (d : GlobalDoc) : Decidable (DocInvariant d) := by
  unfold DocInvariant
  infer_instance

/-! ## Shared helper lemmas for the claim theorems -/

theorem interleave_altToks {ts : List Tok} (h : AltToks ts) :
    interleave (plains ts) (hits ts) = joinToks ts := by
  induction h with
  | single p => simp [plains, hits, joinToks, Tok.str, interleave]
  | cons p m rest hrest ih =>
      rw [plains_cons_plain, plains_cons_hit, hits_cons_plain, hits_cons_hit,
        joinToks_cons, joinToks_cons]
      simp only [interleave]
      rw [ih]
      simp [Tok.str]

theorem enumFrom_map_snd (l : List (List Char)) :
    ∀ n, (List.enumFrom n l).map Prod.snd = l := by
  induction l with
  | nil => intro n; rfl
  | cons x l ih => intro n; simp [List.enumFrom, ih]

theorem interleave_split_findall (s : List Char) :
    interleave (splitM matchHtmlAt s) (findallM matchHtmlAt s) = s := by
  have halt := altToks_scanAux matchHtmlAt s.length [] s
  have hil := interleave_altToks halt
  have hj := joinToks_scanAux matchHtmlAt matchHtmlAt_split s.length [] s (le_refl _)
  unfold splitM findallM scanTok
  rw [hil]
  simpa using hj

/-- A sample settings snapshot: default username @Def, empty whitelists, all
three feature flags on (their defaults). -/
def stDemo : BotSettings :=
  { default_username := "@Def".data
    whitelist_usernames := []
    whitelist_urls := []
    replace_links := true
    replace_usernames := true
    add_username_to_all := true }

/-! ## Claim theorems -/

/-- C9: identity round-trip of the markup split/interleave: for every input
string, process_with_html_preservation with the identity content processor
returns the input unchanged. -/
theorem c9_split_interleave_identity (s : List Char) :
    process_with_html_preservation (fun x => x) s = s := by
  unfold process_with_html_preservation
  have hmap : (splitM matchHtmlAt s).enum.map
      (fun p => if p.1 % 2 = 0 then p.2 else p.2) = splitM matchHtmlAt s := by
    have hfe : (fun p : Nat × List Char => if p.1 % 2 = 0 then p.2 else p.2)
        = Prod.snd := by
      funext p
      exact ite_self p.2
    rw [hfe]
    exact enumFrom_map_snd _ 0
  rw [hmap, interleave_split_findall]

/-- C10: when rewriting is textually a no-op, the handler attempts no edit:
the guard modifications_made and modified_text different from original_text
fails whenever the rewritten text equals the original. -/
theorem c10_no_edit_on_textual_noop (w : PostWorld) (text : List Char)
    (h : (rewriteCore w.settings text).1 = text) :
    process_channel_post w text = [] := by
  by_cases he : text.isEmpty
  · simp [process_channel_post, post_body, he]
  · by_cases hs : w.settings_ok
    · simp [process_channel_post, post_body, he, hs, h]
    · simp [process_channel_post, post_body, he, hs]

/-- Witness for C10: a post whose tag-stripped text contains a
non-whitelisted mention and link, yet the rewrite leaves the text unchanged
(the content sits at an odd split index), and no edit is attempted. -/
theorem c10_no_edit_on_textual_noop_witness :
    needs_modification stDemo
        (extract_text_without_html "<b>@foo</b>".data) = true
    ∧ (rewriteCore stDemo "<b>@foo</b>".data).1 = "<b>@foo</b>".data
    ∧ process_channel_post
        { settings_ok := true, settings := stDemo,
          html_edit_ok := true, plain_edit_ok := true } "<b>@foo</b>".data = [] :=
  ⟨by decide, by decide,
    c10_no_edit_on_textual_noop
      { settings_ok := true, settings := stDemo,
        html_edit_ok := true, plain_edit_ok := true } "<b>@foo</b>".data (by decide)⟩

/-- C6: an exception during settings retrieval is caught by the outer
try/except of process_channel_post: the handler returns normally and no edit
is attempted, for every update text and edit-call behaviour. -/
theorem c6_settings_failure_no_edit (w : PostWorld) (text : List Char)
    (h : w.settings_ok = false) : process_channel_post w text = [] := by
  by_cases he : text.isEmpty
  · simp [process_channel_post, post_body, he]
  · simp [process_channel_post, post_body, he, h]

/-- Witness for C6: with a failing settings store the handler does nothing,
whatever the edit calls would do. -/
theorem c6_settings_failure_no_edit_witness :
    process_channel_post
      { settings_ok := false, settings := stDemo,
        html_edit_ok := false, plain_edit_ok := false }
      "@spam visit http://x.com".data = [] :=
  c6_settings_failure_no_edit
    { settings_ok := false, settings := stDemo,
      html_edit_ok := false, plain_edit_ok := false }
    "@spam visit http://x.com".data rfl

/-- C7: when the rewritten text differs from the original, the post is edited
with the HTML parse mode; if that call raises there is exactly one retry
without the parse mode, and a second failure is swallowed: never a third
attempt, no exception escapes. -/
theorem c7_edit_retry_policy (w : PostWorld) (text : List Char)
    (hs : w.settings_ok = true) (hne : text ≠ [])
    (hmade : (rewriteCore w.settings text).2 = true)
    (hdiff : (rewriteCore w.settings text).1 ≠ text) :
    process_channel_post w text =
      (if w.html_edit_ok then
        [EditAttempt.html (rewriteCore w.settings text).1 true]
      else
        [EditAttempt.html (rewriteCore w.settings text).1 false,
         EditAttempt.plain (rewriteCore w.settings text).1 w.plain_edit_ok]) := by
  have he : text.isEmpty = false := by
    cases text with
    | nil => exact absurd rfl hne
    | cons _ _ => rfl
  have hd : (decide ((rewriteCore w.settings text).1 = text)) = false := by
    simp [hdiff]
  by_cases hh : w.html_edit_ok <;> by_cases hp : w.plain_edit_ok <;>
    simp [process_channel_post, post_body, he, hs, hmade, hd, attempt_edits, hh, hp]

/-- Witness for C7: a plain post with a non-whitelisted mention gets rewritten
and, with a failing HTML edit, produces exactly the html attempt followed by
one plain retry. -/
theorem c7_edit_retry_policy_witness :
    process_channel_post
      { settings_ok := true, settings := stDemo,
        html_edit_ok := false, plain_edit_ok := true } "hi @spam".data =
      [EditAttempt.html "hi @Def".data false, EditAttempt.plain "hi @Def".data true] := by
  have h := c7_edit_retry_policy
    { settings_ok := true, settings := stDemo,
      html_edit_ok := false, plain_edit_ok := true } "hi @spam".data
    rfl (by decide) (by decide) (by decide)
  rw [h]
  decide

/-- C8: every settings operation preserves the invariant (whitelists without
duplicates, stored username at-shaped when nonempty); adding a present entry
leaves the whitelist unchanged; set_username always stores an at-shaped
username. -/
theorem c8_settings_invariant :
    (∀ d u, DocInvariant d → DocInvariant (add_to_whitelist_usernames d u))
    ∧ (∀ d u, DocInvariant d → DocInvariant (remove_from_whitelist_usernames d u))
    ∧ (∀ d u, DocInvariant d → DocInvariant (add_to_whitelist_urls d u))
    ∧ (∀ d u, DocInvariant d → DocInvariant (remove_from_whitelist_urls d u))
    ∧ (∀ d arg, DocInvariant d → DocInvariant (set_username_command d arg))
    ∧ (∀ l x, x ∈ l → addToSet l x = l)
    ∧ (∀ arg, (set_username_arg arg).take 1 = ['@']) := by
  have haddnodup : ∀ (l : List (List Char)) x, l.Nodup → (addToSet l x).Nodup := by
    intro l x h
    unfold addToSet
    split
    · exact h
    · next hx =>
        rw [List.nodup_append]
        refine ⟨h, List.nodup_singleton x, ?_⟩
        intro a ha hax
        simp at hax
        exact hx (hax ▸ ha)
  have hpullnodup : ∀ (l : List (List Char)) x, l.Nodup → (pullElem l x).Nodup := by
    intro l x h
    exact h.filter _
  have husername : ∀ arg, (set_username_arg arg).take 1 = ['@'] := by
    intro arg
    unfold set_username_arg
    split
    · next h => exact h
    · rfl
  refine ⟨?_, ?_, ?_, ?_, ?_, ?_, husername⟩
  · intro d u h
    exact ⟨haddnodup _ u h.1, h.2.1, h.2.2⟩
  · intro d u h
    exact ⟨hpullnodup _ u h.1, h.2.1, h.2.2⟩
  · intro d u h
    exact ⟨h.1, haddnodup _ u h.2.1, h.2.2⟩
  · intro d u h
    exact ⟨h.1, hpullnodup _ u h.2.1, h.2.2⟩
  · intro d arg h
    refine ⟨h.1, h.2.1, fun _ => husername arg⟩
  · intro l x hx
    unfold addToSet
    rw [if_pos hx]

/-- Witness for C8: the invariant is preserved on the initial config document
(config.py defaults), re-adding a present entry changes nothing, and a bare
argument to set_username is stored at-shaped. -/
theorem c8_settings_invariant_witness :
    DocInvariant (add_to_whitelist_usernames
      { username := "@DK_ANIMES".data,
        whitelist_usernames := ["@DK_ANIMES".data],
        whitelist_urls := ["telegram.org".data] } "@x".data)
    ∧ addToSet ["@DK_ANIMES".data] "@DK_ANIMES".data = ["@DK_ANIMES".data]
    ∧ (set_username_arg "someuser".data).take 1 = ['@'] :=
  ⟨c8_settings_invariant.1
      { username := "@DK_ANIMES".data,
        whitelist_usernames := ["@DK_ANIMES".data],
        whitelist_urls := ["telegram.org".data] } "@x".data (by decide),
    c8_settings_invariant.2.2.2.2.2.1 ["@DK_ANIMES".data] "@DK_ANIMES".data
      (by decide),
    c8_settings_invariant.2.2.2.2.2.2 "someuser".data⟩

/-- C1: evaluation of the rewriter at the spec's markup example.  With @foo
and x.com not whitelisted and both replace flags on, the claim expects
"<b>@Def visit [Link Removed]</b>"; the code instead returns the input
unchanged: re.split on the group-free tag pattern puts all inter-tag content
at indices 0,1,2 while process_with_html_preservation only processes even
indices, so the single content segment (index 1) is left untouched. -/
theorem c1_markup_mode_divergence :
    rewriteCore stDemo "<b>@foo visit http://x.com</b>".data
      = ("<b>@foo visit http://x.com</b>".data, true)
    ∧ "<b>@foo visit http://x.com</b>".data
        ≠ "<b>@Def visit [Link Removed]</b>".data := by
  constructor
  · decide
  · decide

/-- C2: evaluation at a text whose only non-whitelisted link lies between
markup tags.  The detection pass (on the tag-stripped text) fires, but the
substitution pass never visits the odd-indexed segment holding the link, so
no occurrence is replaced, contradicting the claim that every occurrence of
every non-whitelisted link becomes "[Link Removed]". -/
theorem c2_link_replacement_divergence :
    rewriteCore stDemo "<b>http://x.com</b>".data
      = ("<b>http://x.com</b>".data, true)
    ∧ "<b>http://x.com</b>".data ≠ "<b>[Link Removed]</b>".data := by
  constructor
  · decide
  · decide

/-- C3: evaluation at a text whose only non-whitelisted mention lies between
markup tags: the mention is never replaced by the default identifier,
contradicting the claim that every occurrence is replaced. -/
theorem c3_mention_replacement_divergence :
    rewriteCore stDemo "<b>@foo</b>".data = ("<b>@foo</b>".data, true)
    ∧ "<b>@foo</b>".data ≠ "<b>@Def</b>".data := by
  constructor
  · decide
  · decide

/-- C5: link whitelisting is case-insensitive substring matching — the
whitelist predicate used both in detection and in replace_url holds exactly
when some lowercased whitelist entry occurs inside the lowercased link — and
the rewriter leaves "check http://sub.example.com/page" unchanged when
example.com is whitelisted (append flag off so nothing else fires). -/
theorem c5_substring_whitelisting :
    (∀ (wl : List (List Char)) (url : List Char),
      urlWhitelisted wl url = true ↔
        ∃ w ∈ wl, ∃ pre post, lowerL url = pre ++ lowerL w ++ post)
    ∧ rewriteCore
        { default_username := "@Def".data, whitelist_usernames := [],
          whitelist_urls := ["example.com".data], replace_links := true,
          replace_usernames := true, add_username_to_all := false }
        "check http://sub.example.com/page".data
      = ("check http://sub.example.com/page".data, false) := by
  constructor
  · intro wl url
    unfold urlWhitelisted isSubstrOf
    rw [List.any_eq_true]
    constructor
    · rintro ⟨w, hw, hsub⟩
      rw [List.any_eq_true] at hsub
      obtain ⟨t, ht, hpre⟩ := hsub
      rw [List.mem_tails] at ht
      obtain ⟨pre, hpre'⟩ := ht
      rw [List.isPrefixOf_iff_prefix] at hpre
      obtain ⟨post, hpost⟩ := hpre
      exact ⟨w, hw, pre, post, by rw [← hpre', ← hpost, List.append_assoc]⟩
    · rintro ⟨w, hw, pre, post, heq⟩
      refine ⟨w, hw, ?_⟩
      rw [List.any_eq_true]
      refine ⟨lowerL w ++ post, ?_, ?_⟩
      · rw [List.mem_tails]
        exact ⟨pre, by rw [← List.append_assoc, ← heq]⟩
      · rw [List.isPrefixOf_iff_prefix]
        exact ⟨post, rfl⟩
  · decide

/-! ## Appending a newline-separated tail does not disturb earlier match
attempts: H1-style lemmas for the three matchers, used for the idempotence
half of the append-identifier claim. -/

theorem matchUserAt_append (X' : List Char) :
    ∀ s, s ≠ [] → matchUserAt (s ++ '\n' :: X')
      = Option.map (fun p => (p.1, p.2 ++ '\n' :: X')) (matchUserAt s) := by
  intro s hs
  cases s with
  | nil => exact absurd rfl hs
  | cons c s' =>
    simp only [List.cons_append, matchUserAt]
    by_cases hc : c = '@'
    · rw [if_pos hc, if_pos hc]
      rw [takeWhile_append_break isWordChar s' X' (by decide),
        dropWhile_append_break isWordChar s' X' (by decide)]
      by_cases he : (s'.takeWhile isWordChar).isEmpty
      · rw [if_pos he, if_pos he]; rfl
      · rw [if_neg he, if_neg he]; rfl
    · rw [if_neg hc, if_neg hc]; rfl

theorem matchHtmlAt_append {X' : List Char} (hX : '>' ∉ X') :
    ∀ s, s ≠ [] → matchHtmlAt (s ++ '\n' :: X')
      = Option.map (fun p => (p.1, p.2 ++ '\n' :: X')) (matchHtmlAt s) := by
  intro s hs
  cases s with
  | nil => exact absurd rfl hs
  | cons c s' =>
    simp only [List.cons_append, matchHtmlAt]
    by_cases hc : c = '<'
    · rw [if_pos hc, if_pos hc]
      cases hdw : s'.dropWhile (fun x => !(x = '>')) with
      | nil =>
          rw [dropWhile_append_all _ _ hdw]
          have hXall : ('\n' :: X').dropWhile (fun x => !(x = '>')) = [] := by
            apply dropWhile_all
            intro d hd
            rcases List.mem_cons.mp hd with rfl | hd
            · decide
            · simp
              intro hcontra
              exact hX (hcontra ▸ hd)
          rw [hXall]
          rfl
      | cons g after =>
          rw [dropWhile_append_of_dropWhile_cons _ _ hdw,
            takeWhile_append_of_dropWhile_cons _ _ hdw]
          by_cases he : (s'.takeWhile (fun x => !(x = '>'))).isEmpty
          · simp [he]
          · simp [he]
    · rw [if_neg hc, if_neg hc]; rfl

theorem urlUnitStart_append (r X' : List Char) :
    urlUnitStart (r ++ '\n' :: X') = urlUnitStart r := by
  cases r with
  | nil =>
      show urlUnitStart ('\n' :: X') = false
      simp [urlUnitStart]
      decide
  | cons a r' =>
      simp only [List.cons_append]
      simp only [urlUnitStart]
      by_cases h1 : (a = '-' || isWordChar a || a = '.') = true
      · rw [if_pos h1, if_pos h1]
      · rw [if_neg h1, if_neg h1]
        by_cases h2 : a = '%'
        · rw [if_pos h2, if_pos h2]
          cases r' with
          | nil =>
              cases X' with
              | nil => rfl
              | cons y ys =>
                  show (isHexDigit '\n' && isHexDigit y) = false
                  rw [show isHexDigit '\n' = false from by decide]
                  rfl
          | cons b r'' =>
              cases r'' with
              | nil =>
                  show (isHexDigit b && isHexDigit '\n') = false
                  rw [show isHexDigit '\n' = false from by decide]
                  exact Bool.and_false _
              | cons c2 r''' => rfl
        · rw [if_neg h2, if_neg h2]

theorem urlAfterScheme_append (sch r X' : List Char) :
    urlAfterScheme sch (r ++ '\n' :: X')
      = Option.map (fun p => (p.1, p.2 ++ '\n' :: X')) (urlAfterScheme sch r) := by
  unfold urlAfterScheme
  rw [urlUnitStart_append]
  by_cases h : urlUnitStart r = true
  · rw [if_pos h, if_pos h]
    rw [takeWhile_append_break notSpace r X' (by decide),
      dropWhile_append_break notSpace r X' (by decide)]
    rfl
  · rw [if_neg h, if_neg h]; rfl

theorem take_self_ne_pat {s pat : List Char} {k : Nat}
    (hsk : s.length < k) (hkp : pat.length = k) : s.take k ≠ pat := by
  intro h
  have hl := congrArg List.length h
  rw [List.length_take] at hl
  omega

theorem take_append_ne {s X' pat : List Char} {k : Nat} (hnl : '\n' ∉ pat)
    (hsk : s.length < k) (hkp : pat.length = k) :
    (s ++ '\n' :: X').take k ≠ pat := by
  intro h
  apply hnl
  rw [← h, List.take_append_eq_append_take,
    List.take_of_length_le (by omega : s.length ≤ k)]
  have hk : k - s.length = (k - s.length - 1) + 1 := by omega
  rw [hk, List.take_succ_cons]
  exact List.mem_append_right _ (List.mem_cons_self _ _)

theorem matchUrlAt_append (X' : List Char) :
    ∀ s, s ≠ [] → matchUrlAt (s ++ '\n' :: X')
      = Option.map (fun p => (p.1, p.2 ++ '\n' :: X')) (matchUrlAt s) := by
  intro s hs
  unfold matchUrlAt
  by_cases h8 : 8 ≤ s.length
  · rw [List.take_append_of_le_length h8, List.drop_append_of_le_length h8,
      List.take_append_of_le_length (by omega : 7 ≤ s.length),
      List.drop_append_of_le_length (by omega : 7 ≤ s.length),
      List.take_append_of_le_length (by omega : 4 ≤ s.length),
      List.drop_append_of_le_length (by omega : 4 ≤ s.length)]
    by_cases hh8 : s.take 8 = httpsPat
    · rw [if_pos hh8, if_pos hh8]; exact urlAfterScheme_append _ _ _
    · rw [if_neg hh8, if_neg hh8]
      by_cases hh7 : s.take 7 = httpPat
      · rw [if_pos hh7, if_pos hh7]; exact urlAfterScheme_append _ _ _
      · rw [if_neg hh7, if_neg hh7]
        by_cases hh4 : s.take 4 = wwwPat
        · rw [if_pos hh4, if_pos hh4]
          rw [takeWhile_append_break notSpace (s.drop 4) X' (by decide),
            dropWhile_append_break notSpace (s.drop 4) X' (by decide)]
          by_cases he : ((s.drop 4).takeWhile notSpace).isEmpty
          · rw [if_pos he, if_pos he]; rfl
          · rw [if_neg he, if_neg he]; rfl
        · rw [if_neg hh4, if_neg hh4]; rfl
  · rw [if_neg (take_append_ne (by decide) (by omega) (by decide)),
      if_neg (take_self_ne_pat (by omega) (by decide : httpsPat.length = 8))]
    by_cases h7 : 7 ≤ s.length
    · rw [List.take_append_of_le_length h7, List.drop_append_of_le_length h7,
        List.take_append_of_le_length (by omega : 4 ≤ s.length),
        List.drop_append_of_le_length (by omega : 4 ≤ s.length)]
      by_cases hh7 : s.take 7 = httpPat
      · rw [if_pos hh7, if_pos hh7]; exact urlAfterScheme_append _ _ _
      · rw [if_neg hh7, if_neg hh7]
        by_cases hh4 : s.take 4 = wwwPat
        · rw [if_pos hh4, if_pos hh4]
          rw [takeWhile_append_break notSpace (s.drop 4) X' (by decide),
            dropWhile_append_break notSpace (s.drop 4) X' (by decide)]
          by_cases he : ((s.drop 4).takeWhile notSpace).isEmpty
          · rw [if_pos he, if_pos he]; rfl
          · rw [if_neg he, if_neg he]; rfl
        · rw [if_neg hh4, if_neg hh4]; rfl
    · rw [if_neg (take_append_ne (by decide) (by omega) (by decide)),
        if_neg (take_self_ne_pat (by omega) (by decide : httpPat.length = 7))]
      by_cases h4 : 4 ≤ s.length
      · rw [List.take_append_of_le_length h4, List.drop_append_of_le_length h4]
        by_cases hh4 : s.take 4 = wwwPat
        · rw [if_pos hh4, if_pos hh4]
          rw [takeWhile_append_break notSpace (s.drop 4) X' (by decide),
            dropWhile_append_break notSpace (s.drop 4) X' (by decide)]
          by_cases he : ((s.drop 4).takeWhile notSpace).isEmpty
          · rw [if_pos he, if_pos he]; rfl
          · rw [if_neg he, if_neg he]; rfl
        · rw [if_neg hh4, if_neg hh4]; rfl
      · rw [if_neg (take_append_ne (by decide) (by omega) (by decide)),
          if_neg (take_self_ne_pat (by omega) (by decide : wwwPat.length = 4))]
        rfl

/-! ## Scanning the appended identifier tail -/

theorem findall_user_sep (w : List Char) (hw : w ≠ [])
    (hword : ∀ c ∈ w, isWordChar c = true) :
    findallM matchUserAt ('\n' :: '\n' :: '@' :: w) = ['@' :: w] := by
  have h1 : matchUserAt ('\n' :: ('\n' :: '@' :: w)) = none := by
    simp [matchUserAt]
  have h2 : matchUserAt ('\n' :: ('@' :: w)) = none := by
    simp [matchUserAt]
  have hwe : w.isEmpty = false := by
    cases w with
    | nil => exact absurd rfl hw
    | cons _ _ => rfl
  have h3 : matchUserAt ('@' :: w) = some ('@' :: w, []) := by
    simp only [matchUserAt, if_pos rfl]
    rw [takeWhile_all isWordChar w hword, dropWhile_all isWordChar w hword]
    simp [hwe]
  unfold findallM scanTok
  simp only [List.length_cons]
  simp only [scanAux, h1, h2, h3]
  simp [hits]

theorem url_none_of_no_colon_dot {s : List Char} (hc : ':' ∉ s) (hd : '.' ∉ s) :
    matchUrlAt s = none := by
  have h8 : s.take 8 ≠ httpsPat := by
    intro h
    have hm : ':' ∈ s.take 8 := by rw [h]; decide
    exact hc (List.take_subset 8 s hm)
  have h7 : s.take 7 ≠ httpPat := by
    intro h
    have hm : ':' ∈ s.take 7 := by rw [h]; decide
    exact hc (List.take_subset 7 s hm)
  have h4 : s.take 4 ≠ wwwPat := by
    intro h
    have hm : '.' ∈ s.take 4 := by rw [h]; decide
    exact hd (List.take_subset 4 s hm)
  unfold matchUrlAt
  rw [if_neg h8, if_neg h7, if_neg h4]

theorem findall_url_sep (w : List Char)
    (hword : ∀ c ∈ w, isWordChar c = true) :
    findallM matchUrlAt ('\n' :: '\n' :: '@' :: w) = [] := by
  apply findallM_eq_nil_of_none
  intro s hne hsuf
  apply url_none_of_no_colon_dot
  · intro hmem
    have hin := hsuf.subset hmem
    simp only [List.mem_cons] at hin
    rcases hin with h | h | h | h
    · exact absurd h (by decide)
    · exact absurd h (by decide)
    · exact absurd h (by decide)
    · exact absurd (hword _ h) (by decide)
  · intro hmem
    have hin := hsuf.subset hmem
    simp only [List.mem_cons] at hin
    rcases hin with h | h | h | h
    · exact absurd h (by decide)
    · exact absurd h (by decide)
    · exact absurd h (by decide)
    · exact absurd (hword _ h) (by decide)

theorem findall_html_sep (w : List Char)
    (hword : ∀ c ∈ w, isWordChar c = true) :
    findallM matchHtmlAt ('\n' :: '\n' :: '@' :: w) = [] := by
  apply findallM_eq_nil_of_none
  intro s hne hsuf
  cases s with
  | nil => exact absurd rfl hne
  | cons c r =>
    have hc : ¬(c = '<') := by
      intro hceq
      subst hceq
      have hin := hsuf.subset (List.mem_cons_self '<' r)
      simp only [List.mem_cons] at hin
      rcases hin with h | h | h | h
      · exact absurd h (by decide)
      · exact absurd h (by decide)
      · exact absurd h (by decide)
      · exact absurd (hword _ h) (by decide)
    simp [matchHtmlAt, hc]

theorem notGt_of_word {c : Char} (h : isWordChar c = true) : ¬(c = '>') := by
  intro hc
  subst hc
  exact absurd h (by decide)

theorem findall_user_append (t w : List Char) (hw : w ≠ [])
    (hword : ∀ c ∈ w, isWordChar c = true) :
    findallM matchUserAt (t ++ '\n' :: '\n' :: '@' :: w)
      = findallM matchUserAt t ++ ['@' :: w] := by
  rw [findallM_append matchUserAt_split (matchUserAt_append ('\n' :: '@' :: w)) t,
    findall_user_sep w hw hword]

theorem findall_url_append (t w : List Char)
    (hword : ∀ c ∈ w, isWordChar c = true) :
    findallM matchUrlAt (t ++ '\n' :: '\n' :: '@' :: w)
      = findallM matchUrlAt t := by
  rw [findallM_append matchUrlAt_split (matchUrlAt_append ('\n' :: '@' :: w)) t,
    findall_url_sep w hword, List.append_nil]

theorem findall_html_append (t w : List Char)
    (hword : ∀ c ∈ w, isWordChar c = true)
    (h : findallM matchHtmlAt t = []) :
    findallM matchHtmlAt (t ++ '\n' :: '\n' :: '@' :: w) = [] := by
  have hX : '>' ∉ ('\n' :: '@' :: w) := by
    intro hin
    simp only [List.mem_cons] at hin
    rcases hin with hh | hh | hh
    · exact absurd hh (by decide)
    · exact absurd hh (by decide)
    · exact absurd (hword _ hh) (by decide)
  rw [findallM_append matchHtmlAt_split (matchHtmlAt_append hX) t,
    findall_html_sep w hword, h]
  rfl

theorem word_not_space {c : Char} (h : isWordChar c = true) : isSpace c = false := by
  by_cases hs : isSpace c = true
  · exfalso
    unfold isSpace at hs
    simp only [Bool.or_eq_true, decide_eq_true_eq] at hs
    rcases hs with ((((rfl | rfl) | rfl) | rfl) | rfl) | rfl <;>
      exact absurd h (by decide)
  · simpa using hs

theorem rdrop_id_of_head_rev {y : List Char} {c0 : Char} {rr : List Char}
    (hrev : y.reverse = c0 :: rr) (hc0 : isSpace c0 = false) :
    (y.reverse.dropWhile isSpace).reverse = y := by
  rw [hrev, List.dropWhile_cons, hc0]
  simp only [Bool.false_eq_true, if_false]
  rw [← hrev, List.reverse_reverse]

theorem pyStrip_append_u (a w : List Char) (hw : w ≠ [])
    (hword : ∀ c ∈ w, isWordChar c = true) :
    pyStrip (a ++ '@' :: w) = a.dropWhile isSpace ++ '@' :: w := by
  unfold pyStrip
  rw [dropWhile_append_break isSpace a w (by decide)]
  cases hwr : w.reverse with
  | nil => exact absurd (by simpa using congrArg List.reverse hwr) hw
  | cons c0 wr =>
      have hc0w : isWordChar c0 = true := by
        apply hword
        have hmem : c0 ∈ w.reverse := by rw [hwr]; exact List.mem_cons_self _ _
        simpa using hmem
      have hrev : (a.dropWhile isSpace ++ '@' :: w).reverse
          = c0 :: (wr ++ '@' :: (a.dropWhile isSpace).reverse) := by
        rw [List.reverse_append]
        simp [hwr]
      exact rdrop_id_of_head_rev hrev (word_not_space hc0w)

theorem matchUserAt_shape {s m r : List Char} (h : matchUserAt s = some (m, r)) :
    m = '@' :: m.drop 1 := by
  cases s with
  | nil => simp [matchUserAt] at h
  | cons c rest =>
    simp only [matchUserAt] at h
    by_cases hc : c = '@'
    · rw [if_pos hc] at h
      by_cases he : (rest.takeWhile isWordChar).isEmpty
      · rw [if_pos he] at h; simp at h
      · rw [if_neg he] at h
        simp only [Option.some.injEq, Prod.mk.injEq] at h
        obtain ⟨hm, _⟩ := h
        rw [← hm, hc]
        rfl
    · rw [if_neg hc] at h; simp at h

theorem findall_user_shape {cs m : List Char} (h : m ∈ findallM matchUserAt cs) :
    m = '@' :: m.drop 1 := by
  obtain ⟨s, r, _, hm⟩ := hits_scanAux_sound matchUserAt_split cs.length [] cs m h
  exact matchUserAt_shape hm

/-- C4 (amended): for every text whose tag-stripped form has no
non-whitelisted links or mentions, with the append flag on, whose stripped
tag-stripped text ends neither with the identifier nor with the identifier
with its at signs removed, the rewriter appends exactly two newlines plus the
identifier; and when the text has no markup-tag matches and the identifier is
a mention-shaped token (at sign plus word characters), running the rewriter
again on the appended output produces no further textual change. -/
theorem c4_append_identifier (st : BotSettings) (t : List Char)
    (hadd : st.add_username_to_all = true)
    (hurl : nonWhitelistedUrls st.whitelist_urls (extract_text_without_html t) = [])
    (huser : nonWhitelistedUsernames st.whitelist_usernames
      (extract_text_without_html t) = [])
    (hs1 : endsWithL (pyStrip (extract_text_without_html t))
      (st.default_username.filter (fun c => !(c = '@'))) = false)
    (hs2 : endsWithL (pyStrip (extract_text_without_html t))
      st.default_username = false) :
    rewriteCore st t = (t ++ '\n' :: '\n' :: st.default_username, true)
    ∧ (∀ w, st.default_username = '@' :: w → w ≠ [] →
        (∀ c ∈ w, isWordChar c = true) →
        findallM matchHtmlAt t = [] →
        (rewriteCore st (t ++ '\n' :: '\n' :: st.default_username)).1
          = t ++ '\n' :: '\n' :: st.default_username) := by
  have hnm : needs_modification st (extract_text_without_html t) = false := by
    unfold needs_modification
    rw [hurl, huser]
    simp
  constructor
  · simp [rewriteCore, hnm, hadd, hs1, hs2]
  · intro w hu hw hword hhtml
    rw [hu]
    have hextr_t : extract_text_without_html t = t :=
      substM_of_no_hits matchHtmlAt_split hhtml _
    have hhtml' : findallM matchHtmlAt (t ++ '\n' :: '\n' :: '@' :: w) = [] :=
      findall_html_append t w hword hhtml
    have hextr' : extract_text_without_html (t ++ '\n' :: '\n' :: '@' :: w)
        = t ++ '\n' :: '\n' :: '@' :: w :=
      substM_of_no_hits matchHtmlAt_split hhtml' _
    have hfu := findall_user_append t w hw hword
    have hfr := findall_url_append t w hword
    rw [hextr_t] at hurl huser
    have hurlsWl : ∀ m ∈ findallM matchUrlAt t,
        urlWhitelisted st.whitelist_urls m = true := by
      intro m hm
      have hh := List.filter_eq_nil_iff.mp hurl m hm
      simpa using hh
    have husersWl : ∀ m ∈ findallM matchUserAt t,
        ('@' :: m.drop 1) ∈ st.whitelist_usernames := by
      intro m hm
      have h1 := List.filterMap_eq_nil_iff.mp huser (m.drop 1)
        (List.mem_map_of_mem _ hm)
      by_cases hin : ('@' :: m.drop 1) ∈ st.whitelist_usernames
      · exact hin
      · rw [if_neg hin] at h1; simp at h1
    have hurl' : nonWhitelistedUrls st.whitelist_urls
        (t ++ '\n' :: '\n' :: '@' :: w) = [] := by
      unfold nonWhitelistedUrls
      rw [hfr]
      exact hurl
    have huserlist : nonWhitelistedUsernames st.whitelist_usernames
        (t ++ '\n' :: '\n' :: '@' :: w)
        = if ('@' :: w) ∈ st.whitelist_usernames then [] else ['@' :: w] := by
      unfold nonWhitelistedUsernames
      rw [hfu, List.map_append, List.filterMap_append]
      have h0 : ((findallM matchUserAt t).map (fun m => m.drop 1)).filterMap
          (fun g => if ('@' :: g) ∈ st.whitelist_usernames then none
            else some ('@' :: g)) = [] := huser
      rw [h0]
      simp only [List.map_cons, List.map_nil, List.filterMap_cons,
        List.filterMap_nil, List.nil_append]
      by_cases hin : ('@' :: w) ∈ st.whitelist_usernames
      · simp [hin]
      · simp [hin]
    by_cases hcase : st.replace_usernames = true ∧ ('@' :: w) ∉ st.whitelist_usernames
    · obtain ⟨hru, hnin⟩ := hcase
      have hnm' : needs_modification st (extract_text_without_html
          (t ++ '\n' :: '\n' :: '@' :: w)) = true := by
        rw [hextr']
        unfold needs_modification
        rw [huserlist, if_neg hnin, hru]
        simp
      unfold rewriteCore
      rw [hu]
      simp only [hnm', eq_self_iff_true, if_true]
      have hsplit' : splitM matchHtmlAt (t ++ '\n' :: '\n' :: '@' :: w)
          = [t ++ '\n' :: '\n' :: '@' :: w] :=
        splitM_of_no_hits matchHtmlAt_split hhtml'
      show process_with_html_preservation (process_content st)
          (t ++ '\n' :: '\n' :: '@' :: w) = t ++ '\n' :: '\n' :: '@' :: w
      unfold process_with_html_preservation
      rw [hsplit', hhtml']
      simp only [List.enum, List.enumFrom, List.map_cons, List.map_nil]
      rw [if_pos trivial]
      show interleave [process_content st (t ++ '\n' :: '\n' :: '@' :: w)] []
          = t ++ '\n' :: '\n' :: '@' :: w
      have hpu : process_urls st (t ++ '\n' :: '\n' :: '@' :: w)
          = t ++ '\n' :: '\n' :: '@' :: w := by
        unfold process_urls
        by_cases hrl : st.replace_links
        · rw [hrl]
          simp only [Bool.not_true, Bool.false_eq_true, if_false]
          apply substM_id_of_hits_fixed matchUrlAt_split
          intro m hm
          rw [hfr] at hm
          unfold replace_url
          rw [if_pos (hurlsWl m hm)]
        · simp only [Bool.not_eq_true] at hrl
          rw [hrl]
          simp
      have hpuser : process_usernames st (t ++ '\n' :: '\n' :: '@' :: w)
          = t ++ '\n' :: '\n' :: '@' :: w := by
        unfold process_usernames
        rw [hru]
        simp only [Bool.not_true, Bool.false_eq_true, if_false]
        apply substM_id_of_hits_fixed matchUserAt_split
        intro m hm
        rw [hfu] at hm
        rcases List.mem_append.mp hm with hmt | hmu
        · have hshape := findall_user_shape hmt
          unfold replace_username
          rw [if_pos (husersWl m hmt), ← hshape]
        · simp only [List.mem_singleton] at hmu
          subst hmu
          unfold replace_username
          simp only [List.drop_succ_cons, List.drop_zero]
          rw [if_neg hnin, hu]
      unfold process_content
      rw [hpu, hpuser]
      simp [interleave]
    · have hnm' : needs_modification st (extract_text_without_html
          (t ++ '\n' :: '\n' :: '@' :: w)) = false := by
        rw [hextr']
        unfold needs_modification
        rw [hurl', huserlist]
        rcases not_and_or.mp hcase with hru | hin
        · have hruf : st.replace_usernames = false := by
            cases hb : st.replace_usernames
            · rfl
            · exact absurd hb hru
          simp [hruf]
        · have hinw : ('@' :: w) ∈ st.whitelist_usernames := not_not.mp hin
          simp [hinw]
      unfold rewriteCore
      rw [hu]
      have hsfx : endsWithL (pyStrip (extract_text_without_html
          (t ++ '\n' :: '\n' :: '@' :: w))) ('@' :: w) = true := by
        rw [hextr']
        have hassoc : t ++ '\n' :: '\n' :: '@' :: w
            = (t ++ ['\n', '\n']) ++ '@' :: w := by simp
        rw [hassoc, pyStrip_append_u _ w hw hword]
        unfold endsWithL
        rw [List.isSuffixOf_iff_suffix]
        exact ⟨_, rfl⟩
      simp [hnm', hadd, hsfx]

/-- Counterexample to C4 as stated: "helloDef" has no links or mentions, the
append flag is on and the text does not end with the identifier "@Def", yet
the rewriter appends nothing — the suffix check at bot.py line 471 also
compares against the identifier with its at signs removed ("Def"), which
"helloDef" does end with. -/
theorem c4_counterexample :
    nonWhitelistedUrls stDemo.whitelist_urls
      (extract_text_without_html "helloDef".data) = []
    ∧ nonWhitelistedUsernames stDemo.whitelist_usernames
      (extract_text_without_html "helloDef".data) = []
    ∧ stDemo.add_username_to_all = true
    ∧ endsWithL "helloDef".data stDemo.default_username = false
    ∧ rewriteCore stDemo "helloDef".data = ("helloDef".data, false)
    ∧ ("helloDef".data : List Char)
      ≠ "helloDef".data ++ '\n' :: '\n' :: stDemo.default_username := by
  refine ⟨by decide, by decide, rfl, by decide, by decide, by decide⟩

/-- Witness for C4: the spec's own example — "hello world" with identifier
@Def gets the identifier appended after two newlines, and a second run on the
appended output changes nothing. -/
theorem c4_append_identifier_witness :
    rewriteCore stDemo "hello world".data
      = ("hello world".data ++ '\n' :: '\n' :: "@Def".data, true)
    ∧ (rewriteCore stDemo ("hello world".data ++ '\n' :: '\n' :: "@Def".data)).1
      = "hello world".data ++ '\n' :: '\n' :: "@Def".data := by
  have h := c4_append_identifier stDemo "hello world".data rfl (by decide)
    (by decide) (by decide) (by decide)
  exact ⟨h.1, h.2 "Def".data rfl (by decide) (by decide) (by decide)⟩

end UrlReplace
